import Mathlib

/-!
Verification of the offline RAG chatbot's core: the FAISS-backed
`NomicVectorStore` (src/src/core/vector_store_nomic.py), the sentence
chunker (src/src/core/document_processor.py) and the retrieval
orchestration (src/app.py).

Modelling conventions:
* vectors are `List ℚ` (exact arithmetic in place of float32; the FAISS
  flat index is modelled as the list of stored rows, searched by an
  exhaustive scan over squared L2 distance, ascending, ties broken by
  smaller row id — the documented behaviour of `IndexFlatL2`);
* the Ollama embedding endpoint is an oracle `resp : String → EmbedResponse`
  distinguishing a 200-response carrying an embedding from a non-success
  status and from a raised exception (connection error, timeout, malformed
  body), exactly the cases `_get_embedding` branches on;
* the generation endpoint is an oracle `gen : String → String`;
* file-system persistence is a pair of optional artifacts (`None` models a
  missing file), mirroring the two companion files written by `save`;
* chunker text is `List Char`; the regex split `(?<=[.!?])\s+` is modelled
  by an equivalent character scan.
-/

/-- Python `\s` on the cleaned ASCII text: the characters `str.strip`,
`str.split` and the regex treat as whitespace. -/
def pySpace (c : Char) : Bool :=
  c = ' ' || c = '\t' || c = '\n' || c = '\r' || c = '\x0b' || c = '\x0c'

/-- The sentence-terminating characters of the split regex `(?<=[.!?])\s+`. -/
def sentEnd (c : Char) : Bool :=
  c = '.' || c = '!' || c = '?'

/-- Character scan equivalent to `re.split(r'(?<=[.!?])\s+', text)`:
while building a piece, a whitespace character immediately preceded by
`.`, `!` or `?` closes the piece and starts a maximal whitespace gap;
`inGap` records that we are inside such a gap (with an empty accumulator). -/
def splitGo (inGap : Bool) (acc : List Char) : List Char → List (List Char)
  | [] => [acc.reverse]
  | c :: rest =>
    if inGap then
      if pySpace c then splitGo true acc rest
      else splitGo false [c] rest
    else
      if pySpace c then
        match acc with
        | p :: ps => if sentEnd p then (p :: ps).reverse :: splitGo true [] rest
                     else splitGo false (c :: p :: ps) rest
        | [] => splitGo false [c] rest
      else splitGo false (c :: acc) rest

/-- `re.split(r'(?<=[.!?])\s+', text)` from `_chunk_text`. -/
def splitSents (text : List Char) : List (List Char) :=
  splitGo false [] text

/-- Python `str.strip()`: drop whitespace from both ends. -/
def stripChars (l : List Char) : List Char :=
  ((l.dropWhile pySpace).reverse.dropWhile pySpace).reverse

/-- Worker for Python `str.split()` (split on whitespace runs, no empties). -/
def splitWSGo (acc : List Char) : List Char → List (List Char)
  | [] => if acc.isEmpty then [] else [acc.reverse]
  | c :: rest =>
    if pySpace c then
      if acc.isEmpty then splitWSGo [] rest
      else acc.reverse :: splitWSGo [] rest
    else splitWSGo (c :: acc) rest

/-- Python `current_chunk.split()`. -/
def splitWS (l : List Char) : List (List Char) :=
  splitWSGo [] l

/-- Python `" ".join(words)`. -/
def joinSpace : List (List Char) → List Char
  | [] => []
  | [w] => w
  | w :: ws => w ++ ' ' :: joinSpace ws

/-- Python `words[-n:]` for `n = int(overlap_chars/5)`: the last `n` words,
or all of them when `n` is zero (`words[-0:]` is the whole list). -/
def lastSlice (n : Nat) (ws : List (List Char)) : List (List Char) :=
  if n = 0 then ws else ws.drop (ws.length - n)

/-- `config.CHUNK_SIZE` (src/src/core/config.py). -/
def CHUNK_SIZE : Nat := 1000

/-- `config.CHUNK_OVERLAP` (src/src/core/config.py). -/
def CHUNK_OVERLAP : Nat := 200

/-- One iteration of the sentence loop in `DocumentProcessor._chunk_text`:
state is `(chunks, current_chunk)`. -/
def chunkStep (maxChars nOv : Nat) (st : List (List Char) × List Char)
    (s : List Char) : List (List Char) × List Char :=
  if st.2.length + s.length > maxChars ∧ st.2 ≠ [] then
    let words := splitWS st.2
    let ow := if words.length > 10 then lastSlice nOv words else []
    (st.1 ++ [stripChars st.2], joinSpace ow ++ ' ' :: s)
  else
    (st.1, st.2 ++ ' ' :: s)

/-- The loop of `_chunk_text` over the sentence list plus the final flush
of a non-empty (after stripping) trailing buffer. -/
def chunkTextCore (maxChars nOv : Nat) (sents : List (List Char)) :
    List (List Char) :=
  if stripChars (sents.foldl (chunkStep maxChars nOv) ([], [])).2 = []
  then (sents.foldl (chunkStep maxChars nOv) ([], [])).1
  else (sents.foldl (chunkStep maxChars nOv) ([], [])).1
    ++ [stripChars (sents.foldl (chunkStep maxChars nOv) ([], [])).2]

/-- `DocumentProcessor._chunk_text(text, max_tokens)`:
`max_chars = max_tokens * 4`, `overlap_chars = config.CHUNK_OVERLAP * 4`,
overlap word count `int(overlap_chars / 5)`. -/
def chunkText (maxTokens : Nat) (text : List Char) : List (List Char) :=
  chunkTextCore (maxTokens * 4) (CHUNK_OVERLAP * 4 / 5) (splitSents text)

/-- Outcome of one call to the Ollama embeddings endpoint, as observed by
`NomicVectorStore._get_embedding`: a 200 response with a parseable
`embedding` field, a non-success status, or a raised exception
(connection failure, timeout, malformed response body). -/
inductive EmbedResponse where
  | ok (embedding : List ℚ)
  | httpError (status : Nat)
  | failure
deriving DecidableEq

/-- The failure cases of `_get_embedding` (everything except a parseable
200 response). -/
def EmbedResponse.isFailure : EmbedResponse → Prop
  | .ok _ => False
  | .httpError _ => True
  | .failure => True

/-- `NomicVectorStore._get_embedding`: the embedding on success, the zero
vector of the store dimension on any failure. -/
def getEmbedding (resp : String → EmbedResponse) (dim : Nat) (text : String) :
    List ℚ :=
  match resp text with
  | .ok e => e
  | .httpError _ => List.replicate dim 0
  | .failure => List.replicate dim 0

/-- `NomicVectorStore._get_embeddings_batch`: one embedding per text,
in input order. -/
def getEmbeddingsBatch (resp : String → EmbedResponse) (dim : Nat)
    (texts : List String) : List (List ℚ) :=
  texts.map (getEmbedding resp dim)

/-- One metadata record of the store: `{'text': ..., 'source': ..., 'chunk_id': ...}`. -/
structure MetaRec where
  text : String
  source : String
  chunk_id : Nat
deriving DecidableEq, Inhabited

/-- The state of a `NomicVectorStore`: the FAISS flat index is its list of
stored rows, `metadata` the parallel Python list. -/
structure VectorStore where
  dimension : Nat
  index : List (List ℚ)
  metadata : List MetaRec
deriving DecidableEq

/-- `NomicVectorStore.__init__` / the store right after `clear()`:
dimension 768, empty index, empty metadata. -/
def freshStore : VectorStore :=
  { dimension := 768, index := [], metadata := [] }

/-- `NomicVectorStore.clear`. -/
def clearStore (s : VectorStore) : VectorStore :=
  { s with index := [], metadata := [] }

/-- The dimension-mismatch fallback in `add_documents`: numpy gives the
batch a single common width `w` (that of its first row); a batch narrower
than the store dimension is zero-padded on the right, a wider one is
truncated. -/
def normalizeBatch (dim : Nat) (vectors : List (List ℚ)) : List (List ℚ) :=
  if (vectors.headI).length ≠ dim then
    if (vectors.headI).length < dim then
      vectors.map (fun v => v ++ List.replicate (dim - (vectors.headI).length) 0)
    else vectors.map (fun v => v.take dim)
  else vectors

/-- `NomicVectorStore.add_documents`: early return on an empty chunk list,
otherwise embed the batch, normalize its width, append the rows to the
index and append one metadata record per chunk (`chunk_id` = position in
this batch). -/
def addDocuments (resp : String → EmbedResponse) (s : VectorStore)
    (chunks : List String) (source : String) : VectorStore :=
  if chunks.isEmpty then s
  else
    let vectors := normalizeBatch s.dimension (getEmbeddingsBatch resp s.dimension chunks)
    { s with
      index := s.index ++ vectors,
      metadata := s.metadata ++ chunks.enum.map (fun p => ⟨p.2, source, p.1⟩) }

/-- A sequence of `add_documents` calls (chunk list and source per call). -/
def runAdds (resp : String → EmbedResponse) (s : VectorStore)
    (calls : List (List String × String)) : VectorStore :=
  calls.foldl (fun st c => addDocuments resp st c.1 c.2) s

/-- Squared L2 distance, the metric of `faiss.IndexFlatL2`. -/
def sqDist (u v : List ℚ) : ℚ :=
  (List.zipWith (fun a b => (a - b) * (a - b)) u v).sum

/-- Ordering of FAISS flat-search results: ascending distance, ties broken
by smaller row id. -/
def pairLe (a b : Nat × ℚ) : Prop :=
  a.2 < b.2 ∨ (a.2 = b.2 ∧ a.1 ≤ b.1)

instance : DecidableRel pairLe := fun a b => by
  unfold pairLe; exact inferInstance

instance : IsTotal (Nat × ℚ) pairLe :=
  ⟨fun a b => by
    rcases lt_trichotomy a.2 b.2 with h | h | h
    · exact Or.inl (Or.inl h)
    · rcases Nat.le_total a.1 b.1 with h2 | h2
      · exact Or.inl (Or.inr ⟨h, h2⟩)
      · exact Or.inr (Or.inr ⟨h.symm, h2⟩)
    · exact Or.inr (Or.inl h)⟩

instance : IsTrans (Nat × ℚ) pairLe :=
  ⟨fun a b c hab hbc => by
    rcases hab with h1 | ⟨h1, h1'⟩
    · rcases hbc with h2 | ⟨h2, h2'⟩
      · exact Or.inl (h1.trans h2)
      · exact Or.inl (h2 ▸ h1)
    · rcases hbc with h2 | ⟨h2, h2'⟩
      · exact Or.inl (h1 ▸ h2)
      · exact Or.inr ⟨h1.trans h2, h1'.trans h2'⟩⟩

/-- `self.index.search(query_vector, k)` on a flat L2 index: every stored
row paired with its distance to the query, sorted ascending (ties by row
id), first `k` kept. -/
def searchPairs (index : List (List ℚ)) (q : List ℚ) (k : Nat) :
    List (Nat × ℚ) :=
  (List.insertionSort pairLe (index.enum.map (fun p => (p.1, sqDist q p.2)))).take k

/-- One search result: a copy of a metadata record with a `score` key added. -/
structure SearchResult where
  text : String
  source : String
  chunk_id : Nat
  score : ℚ
deriving DecidableEq

/-- `result = self.metadata[idx].copy(); result['score'] = distance`. -/
def mkResult (m : MetaRec) (score : ℚ) : SearchResult :=
  { text := m.text, source := m.source, chunk_id := m.chunk_id, score := score }

/-- The result loop of `search`: each FAISS row id is kept only when it
is a valid position into the metadata list (`if idx < len(self.metadata)`). -/
def searchResults (md : List MetaRec) (pairs : List (Nat × ℚ)) :
    List SearchResult :=
  pairs.filterMap (fun p => (md[p.1]?).map (fun m => mkResult m p.2))

/-- `NomicVectorStore.search(query, k)`: empty result on an empty index,
otherwise `k` clamped to the row count, the query embedded, FAISS searched
and the guarded result list built. -/
def searchStore (resp : String → EmbedResponse) (s : VectorStore)
    (query : String) (k : Nat) : List SearchResult :=
  if s.index.length = 0 then []
  else
    searchResults s.metadata
      (searchPairs s.index (getEmbedding resp s.dimension query) (min k s.index.length))

/-- The two companion files written by `save` and read by `load`;
`none` models a missing file. -/
structure Artifacts where
  indexFile : Option (List (List ℚ))
  metaFile : Option (List MetaRec)
deriving DecidableEq

/-- `NomicVectorStore.save`: writes the FAISS index and pickles the
metadata list. -/
def saveStore (s : VectorStore) : Artifacts :=
  { indexFile := some s.index, metaFile := some s.metadata }

/-- `NomicVectorStore.load`: if either file is missing, warn and return
`False` leaving the store untouched; otherwise install both blocks as read
(no cross-validation of their lengths) and return `True`. -/
def loadStore (s : VectorStore) (a : Artifacts) : VectorStore × Bool :=
  match a.indexFile, a.metaFile with
  | some idx, some md => ({ s with index := idx, metadata := md }, true)
  | _, _ => (s, false)

/-- `config.RETRIEVAL_TOP_K`. -/
def RETRIEVAL_TOP_K : Nat := 15

/-- An external service call made while answering a query: one embedding
request or one generation request. -/
inductive ExtCall where
  | embedCall (text : String)
  | generateCall (prompt : String)
deriving DecidableEq

/-- The `sources` entries packaged by `perform_rag`: chunk text previewed
to 200 characters with an ellipsis when longer. -/
structure SourceInfo where
  source : String
  chunk_id : Nat
  score : ℚ
  text : String
deriving DecidableEq

/-- Step 5 of `perform_rag`: package one retrieved chunk. -/
def mkSourceInfo (d : SearchResult) : SourceInfo :=
  { source := d.source, chunk_id := d.chunk_id, score := d.score,
    text := if d.text.length > 200 then d.text.take 200 ++ "..." else d.text }

/-- The `context_parts` list built from the retrieved documents
(excerpt header numbered from 1, source line, content line, blank line). -/
def contextLines (docs : List SearchResult) : List String :=
  (docs.enum.map (fun p =>
    ["--- Document Excerpt " ++ toString (p.1 + 1) ++ " ---",
     "Source: " ++ p.2.source,
     "Content: " ++ p.2.text,
     ""])).flatten

/-- `config.get_rag_prompt(query, context)`. -/
def ragPrompt (query context : String) : String :=
  "Use the information below to answer the question.\n\nINFORMATION:\n"
    ++ context ++ "\n\nQUESTION: " ++ query
    ++ "\n\nANSWER using only the information above:"

/-- The dictionary returned by `perform_rag` (`query` key absent on the
two error results, modelled as `none`). -/
structure RagResult where
  answer : String
  sources : List SourceInfo
  error : Option String
  query : Option String
deriving DecidableEq

/-- `perform_rag(query)` from src/app.py paired with the trace of external
service calls it makes: the empty-store branch answers immediately with
reason `no_documents` and an empty trace; otherwise the query is embedded
and searched (one embedding call), and on a non-empty retrieval the
assembled prompt is sent to the generation service once. -/
def performRag (resp : String → EmbedResponse) (gen : String → String)
    (s : VectorStore) (query : String) : RagResult × List ExtCall :=
  if s.index.length = 0 then
    ({ answer := "No documents have been indexed yet. Please add documents first.",
       sources := [], error := some "no_documents", query := none }, [])
  else
    let retrieved := searchStore resp s query RETRIEVAL_TOP_K
    if retrieved.isEmpty then
      ({ answer := "I don't have enough information in the uploaded documents to answer this question. Please upload relevant documents first.",
         sources := [], error := some "no_results", query := none },
       [ExtCall.embedCall query])
    else
      let context := String.intercalate "\n" (contextLines retrieved)
      let prompt := ragPrompt query context
      ({ answer := (gen prompt).trim, sources := retrieved.map mkSourceInfo,
         error := none, query := some query },
       [ExtCall.embedCall query, ExtCall.generateCall prompt])

/-- The store mutations of the `/ingest` route: the adds performed over a
base store, one `add_documents` call per processed file. -/
def ingestAdd (resp : String → EmbedResponse) (st : VectorStore)
    (results : List (String × List String)) : VectorStore :=
  results.foldl (fun s p => addDocuments resp s p.2 p.1) st

/-- The `/ingest` route of src/app.py, as it affects the vector store:
when files are uploaded the global store is re-initialized empty before
any add (`vector_store = VectorStore()`); in the directory branch (no
`files` in the request) the existing store is kept and added onto. -/
def ingest (resp : String → EmbedResponse) (s : VectorStore)
    (filesUploaded : Bool) (results : List (String × List String)) :
    VectorStore :=
  ingestAdd resp (if filesUploaded then freshStore else s) results

/-- A chunk-list character sequence contains a non-whitespace character. -/
def hasNonSpace (l : List Char) : Bool :=
  l.any (fun c => !pySpace c)

/-- Every piece of a sentence split except the last contains a
non-whitespace character (non-last pieces end with `.`, `!` or `?`). -/
def NLNS : List (List Char) → Prop
  | [] => True
  | [_] => True
  | p :: q :: r => hasNonSpace p = true ∧ NLNS (q :: r)

/-- A four-entry store used to exercise `search` on concrete data
(the vectors are one-dimensional to keep the distances readable). -/
def storeW : VectorStore :=
  { dimension := 768,
    index := [[1], [3], [3], [0]],
    metadata := [⟨"t0", "s", 0⟩, ⟨"t1", "s", 1⟩, ⟨"t2", "s", 2⟩, ⟨"t3", "s", 3⟩] }

/-- An embedding oracle that always answers with the vector `[2]`. -/
def respW : String → EmbedResponse := fun _ => EmbedResponse.ok [2]

/-! ## Helper lemmas -/

theorem normalizeBatch_length (dim : Nat) (vs : List (List ℚ)) :
    (normalizeBatch dim vs).length = vs.length := by
  unfold normalizeBatch
  split
  · split <;> simp
  · rfl

theorem addDocuments_index_length (resp : String → EmbedResponse)
    (s : VectorStore) (chunks : List String) (source : String) :
    (addDocuments resp s chunks source).index.length
      = s.index.length + chunks.length := by
  by_cases hc : chunks.isEmpty
  · rw [List.isEmpty_iff] at hc
    simp [addDocuments, hc]
  · simp [addDocuments, hc, normalizeBatch_length, getEmbeddingsBatch]

theorem addDocuments_metadata_length (resp : String → EmbedResponse)
    (s : VectorStore) (chunks : List String) (source : String) :
    (addDocuments resp s chunks source).metadata.length
      = s.metadata.length + chunks.length := by
  by_cases hc : chunks.isEmpty
  · rw [List.isEmpty_iff] at hc
    simp [addDocuments, hc]
  · simp [addDocuments, hc]

theorem ingestAdd_extends (resp : String → EmbedResponse)
    (results : List (String × List String)) :
    ∀ st : VectorStore, ∃ V M, (ingestAdd resp st results).index = st.index ++ V
      ∧ (ingestAdd resp st results).metadata = st.metadata ++ M := by
  induction results with
  | nil =>
    intro st
    exact ⟨[], [], by simp [ingestAdd], by simp [ingestAdd]⟩
  | cons p rest ih =>
    intro st
    obtain ⟨V, M, hV, hM⟩ := ih (addDocuments resp st p.2 p.1)
    have hstep : ingestAdd resp st (p :: rest)
        = ingestAdd resp (addDocuments resp st p.2 p.1) rest := rfl
    by_cases hc : p.2.isEmpty
    · have ha : addDocuments resp st p.2 p.1 = st := by simp [addDocuments, hc]
      rw [ha] at hV hM
      refine ⟨V, M, ?_, ?_⟩
      · rw [hstep, ha]; exact hV
      · rw [hstep, ha]; exact hM
    · have hai : (addDocuments resp st p.2 p.1).index
          = st.index ++ normalizeBatch st.dimension
              (getEmbeddingsBatch resp st.dimension p.2) := by
        simp [addDocuments, hc]
      have ham : (addDocuments resp st p.2 p.1).metadata
          = st.metadata ++ p.2.enum.map (fun q => ⟨q.2, p.1, q.1⟩) := by
        simp [addDocuments, hc]
      refine ⟨normalizeBatch st.dimension (getEmbeddingsBatch resp st.dimension p.2) ++ V,
              p.2.enum.map (fun q => ⟨q.2, p.1, q.1⟩) ++ M, ?_, ?_⟩
      · rw [hstep, hV, hai, List.append_assoc]
      · rw [hstep, hM, ham, List.append_assoc]

/-! ## Claims -/

/-- Claim C3: persistence round-trip. Saving a store and loading the saved
artifacts yields a store observationally equal to the original: the load
succeeds, and the vector count, dimension, vectors (exactly equal in the
rational model, hence within any floating-point tolerance) and the
metadata list in its order are all preserved. -/
theorem c3_persistence_roundtrip (s : VectorStore) :
    loadStore s (saveStore s) = (s, true)
    ∧ (loadStore s (saveStore s)).1.index.length = s.index.length
    ∧ (loadStore s (saveStore s)).1.dimension = s.dimension
    ∧ (loadStore s (saveStore s)).1.index = s.index
    ∧ (loadStore s (saveStore s)).1.metadata = s.metadata :=
  ⟨rfl, rfl, rfl, rfl, rfl⟩

/-- Claim C4: empty-store contract. On a store with zero entries, `search`
returns the empty list for every query and every `k`, and `perform_rag`
returns the fixed "no documents indexed" result with reason code
`no_documents` and an empty external-call trace (no embedding, no search,
no generation request). -/
theorem c4_empty_store (resp : String → EmbedResponse) (gen : String → String)
    (s : VectorStore) (query : String) (h : s.index.length = 0) :
    (∀ k, searchStore resp s query k = [])
    ∧ performRag resp gen s query =
        ({ answer := "No documents have been indexed yet. Please add documents first.",
           sources := [], error := some "no_documents", query := none }, []) := by
  constructor
  · intro k
    simp [searchStore, h]
  · simp [performRag, h]

theorem c4_empty_store_witness :
    freshStore.index.length = 0
    ∧ (∀ k, searchStore (fun _ => EmbedResponse.failure) freshStore "q" k = [])
    ∧ performRag (fun _ => EmbedResponse.failure) (fun _ => "ans") freshStore "q" =
        ({ answer := "No documents have been indexed yet. Please add documents first.",
           sources := [], error := some "no_documents", query := none }, []) :=
  ⟨rfl,
   (c4_empty_store (fun _ => EmbedResponse.failure) (fun _ => "ans") freshStore "q" rfl).1,
   (c4_empty_store (fun _ => EmbedResponse.failure) (fun _ => "ans") freshStore "q" rfl).2⟩

/-- Claim C5 counterexample: `load` does not validate that the two
artifacts agree on entry count. Artifacts holding one vector but zero
metadata records load successfully (the method returns `True`) and install
the mismatched state, instead of failing with a CorruptStore condition. -/
theorem c5_counterexample :
    (loadStore freshStore { indexFile := some [[1]], metaFile := some [] }).2 = true
    ∧ (loadStore freshStore { indexFile := some [[1]], metaFile := some [] }).1.index.length = 1
    ∧ (loadStore freshStore { indexFile := some [[1]], metaFile := some [] }).1.metadata.length = 0 :=
  ⟨rfl, rfl, rfl⟩

/-- Claim C5 (amended): when either persisted artifact is missing, `load`
fails (returns `False`) and leaves the store unchanged — no partial state
is loaded; but `load` performs no entry-count validation: whenever both
artifacts exist it returns `True` and installs both blocks as read, even
when their entry counts disagree. -/
theorem c5_load_behaviour (s : VectorStore) (a : Artifacts) :
    ((a.indexFile = none ∨ a.metaFile = none) → loadStore s a = (s, false))
    ∧ (∀ idx md, a.indexFile = some idx → a.metaFile = some md →
        (loadStore s a).2 = true
        ∧ (loadStore s a).1.index = idx
        ∧ (loadStore s a).1.metadata = md) := by
  obtain ⟨fi, fm⟩ := a
  constructor
  · rintro (h | h)
    · cases h; rfl
    · cases h; cases fi <;> rfl
  · intro idx md h1 h2
    cases h1; cases h2
    exact ⟨rfl, rfl, rfl⟩

theorem c5_load_behaviour_witness :
    loadStore freshStore { indexFile := none, metaFile := some [] } = (freshStore, false)
    ∧ (loadStore freshStore { indexFile := some [[1]], metaFile := some [⟨"t", "s", 0⟩] }).2 = true
    ∧ (loadStore freshStore { indexFile := some [[1]], metaFile := some [⟨"t", "s", 0⟩] }).1.index = [[1]]
    ∧ (loadStore freshStore { indexFile := some [[1]], metaFile := some [⟨"t", "s", 0⟩] }).1.metadata
        = [⟨"t", "s", 0⟩] :=
  ⟨(c5_load_behaviour freshStore { indexFile := none, metaFile := some [] }).1 (Or.inl rfl),
   (c5_load_behaviour freshStore
      { indexFile := some [[1]], metaFile := some [⟨"t", "s", 0⟩] }).2 [[1]] [⟨"t", "s", 0⟩] rfl rfl⟩

/-- Claim C6: embedding degrade policy. `_get_embeddings_batch` returns one
vector per input text in input order; the vector at position `i` is exactly
what `_get_embedding` yields for the `i`-th text, which is the embedding of
a successful response and the zero vector of the configured dimension 768
on any failure (connection error, timeout, non-success status, malformed
body) — a failing item never aborts the batch. -/
theorem c6_embedding_degrade (resp : String → EmbedResponse)
    (texts : List String) (i : Nat) (hi : i < texts.length) :
    (getEmbeddingsBatch resp 768 texts).length = texts.length
    ∧ ∀ hbi : i < (getEmbeddingsBatch resp 768 texts).length,
        (getEmbeddingsBatch resp 768 texts).get ⟨i, hbi⟩
          = getEmbedding resp 768 (texts.get ⟨i, hi⟩)
        ∧ ((resp (texts.get ⟨i, hi⟩)).isFailure →
            (getEmbeddingsBatch resp 768 texts).get ⟨i, hbi⟩ = List.replicate 768 0)
        ∧ (∀ e, resp (texts.get ⟨i, hi⟩) = EmbedResponse.ok e →
            (getEmbeddingsBatch resp 768 texts).get ⟨i, hbi⟩ = e) := by
  refine ⟨List.length_map _ _, fun hbi => ?_⟩
  have hg : (getEmbeddingsBatch resp 768 texts).get ⟨i, hbi⟩
      = getEmbedding resp 768 (texts.get ⟨i, hi⟩) := by
    simp [getEmbeddingsBatch, List.get_eq_getElem]
  refine ⟨hg, ?_, ?_⟩
  · intro hf
    rw [hg]
    cases hr : resp (texts.get ⟨i, hi⟩) with
    | ok e => rw [hr] at hf; exact hf.elim
    | httpError st => unfold getEmbedding; rw [hr]
    | failure => unfold getEmbedding; rw [hr]
  · intro e he
    rw [hg]
    unfold getEmbedding; rw [he]

theorem c6_embedding_degrade_witness :
    (getEmbeddingsBatch (fun _ => EmbedResponse.failure) 768 ["a"]).length = 1
    ∧ (getEmbeddingsBatch (fun _ => EmbedResponse.failure) 768 ["a"]).get ⟨0, by decide⟩
        = List.replicate 768 0 :=
  ⟨(c6_embedding_degrade (fun _ => EmbedResponse.failure) ["a"] 0 (by decide)).1,
   (((c6_embedding_degrade (fun _ => EmbedResponse.failure) ["a"] 0
      (by decide)).2 (by decide)).2.1 trivial)⟩

/-- Claim C7 counterexample: the directory branch of `/ingest` (no files in
the request) does not discard the previous store. Ingesting one processed
document into a store that already holds an entry keeps the old entry and
appends the new one — a merge, not a replacement. -/
theorem c7_counterexample :
    (ingest (fun _ => EmbedResponse.ok (List.replicate 768 0))
        { dimension := 768, index := [List.replicate 768 0],
          metadata := [⟨"old", "o", 0⟩] }
        false [("f.txt", ["new"])]).metadata
      = [⟨"old", "o", 0⟩, ⟨"new", "f.txt", 0⟩] := rfl

/-- Claim C7 (amended): only the uploaded-files branch of `/ingest` is a
full replacement — there the store is re-initialized empty before any add,
so the outcome is independent of the prior store; the directory branch
keeps the existing store and appends the newly processed documents onto
its index and metadata. -/
theorem c7_ingest_replacement (resp : String → EmbedResponse)
    (s s' : VectorStore) (results : List (String × List String)) :
    ingest resp s true results = ingest resp s' true results
    ∧ ∃ V M, (ingest resp s false results).index = s.index ++ V
        ∧ (ingest resp s false results).metadata = s.metadata ++ M := by
  constructor
  · rfl
  · exact ingestAdd_extends resp results s

/-! ### C1: index/metadata parity -/

theorem addDocuments_sync (resp : String → EmbedResponse) (s : VectorStore)
    (chunks : List String) (source : String)
    (hw : ∀ t, (getEmbedding resp 768 t).length = 768)
    (hd : s.dimension = 768)
    (hcorr : ∀ i : Nat, s.index[i]?
        = (s.metadata[i]?).map (fun m => getEmbedding resp 768 m.text)) :
    (addDocuments resp s chunks source).dimension = 768
    ∧ ∀ i : Nat, (addDocuments resp s chunks source).index[i]?
        = ((addDocuments resp s chunks source).metadata[i]?).map
            (fun m => getEmbedding resp 768 m.text) := by
  have hlen : s.index.length = s.metadata.length := by
    by_contra hne
    rcases Nat.lt_or_ge s.index.length s.metadata.length with h | h
    · have h1 := hcorr s.index.length
      rw [List.getElem?_eq_none (le_refl _), List.getElem?_eq_getElem h] at h1
      simp at h1
    · have hlt : s.metadata.length < s.index.length :=
        lt_of_le_of_ne h (fun he => hne he.symm)
      have h1 := hcorr s.metadata.length
      rw [List.getElem?_eq_getElem hlt, List.getElem?_eq_none (le_refl _)] at h1
      simp at h1
  by_cases hc : chunks.isEmpty
  · have heq : addDocuments resp s chunks source = s := by simp [addDocuments, hc]
    rw [heq]
    exact ⟨hd, hcorr⟩
  · have hne : chunks ≠ [] := fun h => by simp [h] at hc
    rcases List.exists_cons_of_ne_nil hne with ⟨c, cs, rfl⟩
    have hnorm : normalizeBatch s.dimension
        (getEmbeddingsBatch resp s.dimension (c :: cs))
        = (c :: cs).map (getEmbedding resp 768) := by
      rw [hd]
      unfold normalizeBatch getEmbeddingsBatch
      simp [hw]
    have hadd : addDocuments resp s (c :: cs) source
        = { s with index := s.index ++ (c :: cs).map (getEmbedding resp 768),
                   metadata := s.metadata
                     ++ (c :: cs).enum.map (fun p => ⟨p.2, source, p.1⟩) } := by
      rw [addDocuments, if_neg (by simp), hnorm]
    rw [hadd]
    refine ⟨hd, fun i => ?_⟩
    by_cases hi : i < s.index.length
    · rw [List.getElem?_append_left hi, List.getElem?_append_left (hlen ▸ hi)]
      exact hcorr i
    · push_neg at hi
      rw [List.getElem?_append_right hi, List.getElem?_append_right (hlen ▸ hi), hlen]
      simp only [List.getElem?_map, List.enum, List.getElem?_enumFrom, Option.map_map]
      cases (c :: cs)[i - s.metadata.length]? with
      | none => rfl
      | some a => rfl

theorem runAdds_parity (resp : String → EmbedResponse)
    (calls : List (List String × String)) :
    ∀ s : VectorStore, s.index.length = s.metadata.length →
      (runAdds resp s calls).index.length = (runAdds resp s calls).metadata.length := by
  induction calls with
  | nil => intro s h; exact h
  | cons cl rest ih =>
    intro s h
    exact ih (addDocuments resp s cl.1 cl.2)
      (by rw [addDocuments_index_length, addDocuments_metadata_length, h])

theorem runAdds_sync (resp : String → EmbedResponse)
    (hw : ∀ t, (getEmbedding resp 768 t).length = 768)
    (calls : List (List String × String)) :
    ∀ s : VectorStore, s.dimension = 768 →
      (∀ i : Nat, s.index[i]?
        = (s.metadata[i]?).map (fun m => getEmbedding resp 768 m.text)) →
      (runAdds resp s calls).dimension = 768
      ∧ ∀ i : Nat, (runAdds resp s calls).index[i]?
          = ((runAdds resp s calls).metadata[i]?).map
              (fun m => getEmbedding resp 768 m.text) := by
  induction calls with
  | nil => intro s hd hcorr; exact ⟨hd, hcorr⟩
  | cons cl rest ih =>
    intro s hd hcorr
    have h := addDocuments_sync resp s cl.1 cl.2 hw hd hcorr
    exact ih (addDocuments resp s cl.1 cl.2) h.1 h.2

/-- Claim C1: index/metadata parity. For every sequence of `add_documents`
calls starting from a fresh (or equivalently cleared) store, the number of
vectors held in the index equals the number of metadata records — and
(whenever the embedding backend delivers 768-wide vectors, so that no
normalization reshapes the batch) the record and the vector at any common
position belong together: the `i`-th stored vector is exactly the
embedding of the `i`-th metadata record's text, and position `i` is
occupied in the index exactly when it is occupied in the metadata list.
Since the sequence of calls is arbitrary, the equality holds after every
intermediate call as well; no call can add a vector without its metadata
or vice versa. -/
theorem c1_index_metadata_parity (resp : String → EmbedResponse)
    (calls : List (List String × String)) :
    (runAdds resp freshStore calls).index.length
      = (runAdds resp freshStore calls).metadata.length
    ∧ ((∀ t, (getEmbedding resp 768 t).length = 768) →
        ∀ i : Nat, (runAdds resp freshStore calls).index[i]?
          = ((runAdds resp freshStore calls).metadata[i]?).map
              (fun m => getEmbedding resp 768 m.text)) := by
  constructor
  · exact runAdds_parity resp calls freshStore rfl
  · intro hw
    exact (runAdds_sync resp hw calls freshStore rfl (fun i => by simp [freshStore])).2

theorem c1_index_metadata_parity_witness :
    ((runAdds (fun _ => EmbedResponse.failure) freshStore [(["a"], "s")]).index.length
       = (runAdds (fun _ => EmbedResponse.failure) freshStore [(["a"], "s")]).metadata.length)
    ∧ (runAdds (fun _ => EmbedResponse.failure) freshStore [(["a"], "s")]).index[0]?
        = ((runAdds (fun _ => EmbedResponse.failure) freshStore [(["a"], "s")]).metadata[0]?).map
            (fun m => getEmbedding (fun _ => EmbedResponse.failure) 768 m.text) :=
  ⟨(c1_index_metadata_parity (fun _ => EmbedResponse.failure) [(["a"], "s")]).1,
   (c1_index_metadata_parity (fun _ => EmbedResponse.failure) [(["a"], "s")]).2
     (fun _ => List.length_replicate 768 0) 0⟩

/-! ### C2: search ordering -/

theorem searchPairs_length (index : List (List ℚ)) (q : List ℚ) (k : Nat) :
    (searchPairs index q (min k index.length)).length = min k index.length := by
  unfold searchPairs
  rw [List.length_take, (List.perm_insertionSort pairLe _).length_eq]
  rw [List.length_map, List.enum_length]
  exact min_eq_left (min_le_right k index.length)

theorem mem_searchPairs_lt (index : List (List ℚ)) (q : List ℚ) (k : Nat)
    (p : Nat × ℚ) (hp : p ∈ searchPairs index q k) : p.1 < index.length := by
  unfold searchPairs at hp
  have h1 : p ∈ List.insertionSort pairLe
      (index.enum.map (fun r => (r.1, sqDist q r.2))) := List.mem_of_mem_take hp
  have h2 := (List.perm_insertionSort pairLe _).mem_iff.mp h1
  rcases List.mem_map.mp h2 with ⟨r, hr, hre⟩
  have h3 := List.mem_enum_iff_getElem?.mp hr
  have h4 : r.1 < index.length := by
    rcases List.getElem?_eq_some.mp h3 with ⟨h, _⟩
    exact h
  rw [← hre]
  exact h4

theorem searchPairs_sorted (index : List (List ℚ)) (q : List ℚ) (k : Nat) :
    List.Sorted pairLe (searchPairs index q k) :=
  (List.sorted_insertionSort pairLe _).sublist (List.take_sublist _ _)

theorem searchResults_scores (md : List MetaRec) (pairs : List (Nat × ℚ))
    (h : ∀ p ∈ pairs, p.1 < md.length) :
    (searchResults md pairs).map SearchResult.score = pairs.map Prod.snd := by
  induction pairs with
  | nil => rfl
  | cons p ps ih =>
    have hp : p.1 < md.length := h p (List.mem_cons_self _ _)
    have hsome : (md[p.1]?).map (fun m => mkResult m p.2)
        = some (mkResult (md.get ⟨p.1, hp⟩) p.2) := by
      rw [List.getElem?_eq_getElem hp]
      rfl
    unfold searchResults
    rw [@List.filterMap_cons_some (Nat × ℚ) SearchResult
        (fun r => (md[r.1]?).map (fun m => mkResult m r.2)) p ps _ hsome,
      List.map_cons, List.map_cons]
    have ih2 := ih (fun r hr => h r (List.mem_cons_of_mem _ hr))
    unfold searchResults at ih2
    rw [ih2]
    rfl

theorem searchResults_length (md : List MetaRec) (pairs : List (Nat × ℚ))
    (h : ∀ p ∈ pairs, p.1 < md.length) :
    (searchResults md pairs).length = pairs.length := by
  have h2 := congrArg List.length (searchResults_scores md pairs h)
  rwa [List.length_map, List.length_map] at h2

/-- Claim C2: search ordering and count. On a store whose metadata list
matches its index (the parity invariant), `search` returns exactly
`min k n` results for a store of `n` entries; the underlying FAISS result
pairs are sorted by `pairLe` — ascending squared L2 distance to the query
vector with ties between equal distances broken by smaller insertion
position — the returned scores are exactly those pair distances in that
order, and hence the result scores are non-decreasing. -/
theorem c2_search_ordering (resp : String → EmbedResponse) (s : VectorStore)
    (q : String) (k : Nat)
    (hpar : s.metadata.length = s.index.length) :
    (searchStore resp s q k).length = min k s.index.length
    ∧ List.Sorted pairLe
        (searchPairs s.index (getEmbedding resp s.dimension q) (min k s.index.length))
    ∧ (searchStore resp s q k).map SearchResult.score
        = (searchPairs s.index (getEmbedding resp s.dimension q)
            (min k s.index.length)).map Prod.snd
    ∧ List.Sorted (fun x y : ℚ => x ≤ y)
        ((searchStore resp s q k).map SearchResult.score) := by
  have hvalid : ∀ p ∈ searchPairs s.index (getEmbedding resp s.dimension q)
      (min k s.index.length), p.1 < s.metadata.length :=
    fun p hp => hpar ▸ mem_searchPairs_lt _ _ _ p hp
  have hsorted := searchPairs_sorted s.index (getEmbedding resp s.dimension q)
    (min k s.index.length)
  by_cases h0 : s.index.length = 0
  · have hempty : searchStore resp s q k = [] := by
      rw [searchStore, if_pos h0]
    have hpairs : searchPairs s.index (getEmbedding resp s.dimension q)
        (min k s.index.length) = [] := by
      apply List.length_eq_zero.mp
      rw [searchPairs_length, h0, Nat.min_zero]
    rw [hempty, hpairs, h0, Nat.min_zero]
    exact ⟨rfl, List.sorted_nil, rfl, List.sorted_nil⟩
  · have hs : searchStore resp s q k
        = searchResults s.metadata (searchPairs s.index
            (getEmbedding resp s.dimension q) (min k s.index.length)) := by
      rw [searchStore, if_neg h0]
    have hscores := searchResults_scores s.metadata _ hvalid
    refine ⟨?_, hsorted, ?_, ?_⟩
    · rw [hs, searchResults_length _ _ hvalid, searchPairs_length]
    · rw [hs, hscores]
    · rw [hs, hscores]
      have hmono : ∀ a b : Nat × ℚ, pairLe a b → a.2 ≤ b.2 :=
        fun a b hab => hab.elim le_of_lt (fun h2 => le_of_eq h2.1)
      exact List.Pairwise.map Prod.snd hmono hsorted

theorem c2_search_ordering_witness :
    storeW.metadata.length = storeW.index.length
    ∧ ((searchStore respW storeW "q" 3).length = min 3 storeW.index.length
       ∧ List.Sorted pairLe (searchPairs storeW.index
           (getEmbedding respW storeW.dimension "q") (min 3 storeW.index.length))
       ∧ (searchStore respW storeW "q" 3).map SearchResult.score
           = (searchPairs storeW.index (getEmbedding respW storeW.dimension "q")
               (min 3 storeW.index.length)).map Prod.snd
       ∧ List.Sorted (fun x y : ℚ => x ≤ y)
           ((searchStore respW storeW "q" 3).map SearchResult.score)) :=
  ⟨rfl, c2_search_ordering respW storeW "q" 3 rfl⟩

/-! ### C10: search is total and guarded against index/metadata mismatch -/

/-- Claim C10: `search` is total on every store state, including one where
the FAISS index holds more vectors than there are metadata records. It
returns at most `min k n` results for an index of `n` rows; every returned
result originates from a FAISS result pair whose row id passes the
`idx < len(self.metadata)` guard — a valid position into the metadata
list — and equals a fresh copy of that metadata record extended with the
pair's distance as its score (the stored record itself is never changed:
the result is built by `mkResult`, a new value). Pairs whose row id falls
at or beyond the metadata length are silently dropped. -/
theorem c10_search_totality (resp : String → EmbedResponse) (s : VectorStore)
    (q : String) (k : Nat) :
    (searchStore resp s q k).length ≤ min k s.index.length
    ∧ ∀ r ∈ searchStore resp s q k,
        ∃ p ∈ searchPairs s.index (getEmbedding resp s.dimension q)
            (min k s.index.length),
          p.1 < s.metadata.length
          ∧ ∃ m : MetaRec, s.metadata[p.1]? = some m ∧ r = mkResult m p.2 := by
  by_cases h0 : s.index.length = 0
  · have hempty : searchStore resp s q k = [] := by
      rw [searchStore, if_pos h0]
    constructor
    · rw [hempty]; exact Nat.zero_le _
    · intro r hr
      rw [hempty] at hr
      cases hr
  · have hs : searchStore resp s q k
        = searchResults s.metadata (searchPairs s.index
            (getEmbedding resp s.dimension q) (min k s.index.length)) := by
      rw [searchStore, if_neg h0]
    constructor
    · rw [hs]
      calc (searchResults s.metadata _).length
          ≤ (searchPairs s.index (getEmbedding resp s.dimension q)
              (min k s.index.length)).length := List.length_filterMap_le _ _
        _ ≤ min k s.index.length := by
            unfold searchPairs
            exact List.length_take_le _ _
    · intro r hr
      rw [hs] at hr
      unfold searchResults at hr
      rcases List.mem_filterMap.mp hr with ⟨p, hp, hfp⟩
      rcases Option.map_eq_some'.mp hfp with ⟨m, hm, hmk⟩
      rcases List.getElem?_eq_some.mp hm with ⟨hlt, _⟩
      exact ⟨p, hp, hlt, m, hm, hmk.symm⟩

/-! ### C8: dimension normalization on add -/

/-- Claim C8 counterexample: a zero-length embedding does not make
`add_documents` raise a DimensionMismatch condition. With an embedding
backend returning the empty vector, the add succeeds, the empty vector is
zero-padded to the full 768 components and stored, and the metadata record
is appended — there is no error path in `add_documents` at all. -/
theorem c8_counterexample :
    (addDocuments (fun _ => EmbedResponse.ok []) freshStore ["a"] "src").index
      = [List.replicate 768 (0 : ℚ)]
    ∧ (addDocuments (fun _ => EmbedResponse.ok []) freshStore ["a"] "src").metadata
      = [⟨"a", "src", 0⟩] :=
  ⟨rfl, rfl⟩

/-- Claim C8 (amended): `add_documents` never raises — normalization
reconciles every batch width. For a batch whose embeddings share width `w`
(numpy requires a rectangular batch), a batch narrower than the store
dimension is zero-padded on the right (a 512-wide batch, and even a
zero-length vector, is padded with zeros to 768), a wider batch is
truncated, and an exact-width batch is stored as is; a warning is printed
for any mismatch and the add always succeeds. Consequently every vector
stored in the index has exactly `dimension` (768) components whenever the
previously stored vectors do. -/
theorem c8_dimension_normalization (resp : String → EmbedResponse)
    (s : VectorStore) (chunks : List String) (source : String) (w : Nat)
    (hw : ∀ c ∈ chunks, (getEmbedding resp s.dimension c).length = w)
    (hold : ∀ v ∈ s.index, v.length = s.dimension) :
    (∀ v ∈ (addDocuments resp s chunks source).index, v.length = s.dimension)
    ∧ (chunks ≠ [] → w < s.dimension →
        (addDocuments resp s chunks source).index
          = s.index ++ chunks.map (fun c =>
              getEmbedding resp s.dimension c ++ List.replicate (s.dimension - w) 0))
    ∧ (chunks ≠ [] → s.dimension < w →
        (addDocuments resp s chunks source).index
          = s.index ++ chunks.map (fun c => (getEmbedding resp s.dimension c).take s.dimension))
    ∧ (chunks ≠ [] → w = s.dimension →
        (addDocuments resp s chunks source).index
          = s.index ++ chunks.map (getEmbedding resp s.dimension)) := by
  by_cases hc : chunks.isEmpty
  · have hnil : chunks = [] := by simpa [List.isEmpty_iff] using hc
    subst hnil
    have heq : addDocuments resp s [] source = s := by simp [addDocuments]
    rw [heq]
    exact ⟨hold, fun h => absurd rfl h, fun h => absurd rfl h, fun h => absurd rfl h⟩
  · have hne : chunks ≠ [] := fun h => by simp [h] at hc
    rcases List.exists_cons_of_ne_nil hne with ⟨c, cs, rfl⟩
    have hhead : ((getEmbeddingsBatch resp s.dimension (c :: cs)).headI).length = w := by
      simpa [getEmbeddingsBatch] using hw c (List.mem_cons_self c cs)
    have hidx : (addDocuments resp s (c :: cs) source).index
        = s.index ++ normalizeBatch s.dimension
            (getEmbeddingsBatch resp s.dimension (c :: cs)) := by
      rw [addDocuments, if_neg (by simp)]
    rcases lt_trichotomy w s.dimension with hlt | heqd | hgt
    · have hnb : normalizeBatch s.dimension (getEmbeddingsBatch resp s.dimension (c :: cs))
          = (c :: cs).map (fun x =>
              getEmbedding resp s.dimension x ++ List.replicate (s.dimension - w) 0) := by
        unfold normalizeBatch
        rw [hhead, if_pos (Nat.ne_of_lt hlt), if_pos hlt]
        unfold getEmbeddingsBatch
        rw [List.map_map]
        rfl
      have hi : (addDocuments resp s (c :: cs) source).index
          = s.index ++ (c :: cs).map (fun x =>
              getEmbedding resp s.dimension x ++ List.replicate (s.dimension - w) 0) := by
        rw [hidx, hnb]
      refine ⟨?_, fun _ _ => hi, fun _ h => absurd h (by omega), fun _ h => absurd h (by omega)⟩
      intro v hv
      rw [hi] at hv
      rcases List.mem_append.mp hv with h | h
      · exact hold v h
      · rcases List.mem_map.mp h with ⟨x, hx, rfl⟩
        rw [List.length_append, hw x hx, List.length_replicate]
        omega
    · have hnb : normalizeBatch s.dimension (getEmbeddingsBatch resp s.dimension (c :: cs))
          = (c :: cs).map (getEmbedding resp s.dimension) := by
        unfold normalizeBatch
        rw [hhead, if_neg (by simp [heqd])]
        rfl
      have hi : (addDocuments resp s (c :: cs) source).index
          = s.index ++ (c :: cs).map (getEmbedding resp s.dimension) := by
        rw [hidx, hnb]
      refine ⟨?_, fun _ h => absurd h (by omega), fun _ h => absurd h (by omega),
        fun _ _ => hi⟩
      intro v hv
      rw [hi] at hv
      rcases List.mem_append.mp hv with h | h
      · exact hold v h
      · rcases List.mem_map.mp h with ⟨x, hx, rfl⟩
        rw [hw x hx]
        exact heqd
    · have hnb : normalizeBatch s.dimension (getEmbeddingsBatch resp s.dimension (c :: cs))
          = (c :: cs).map (fun x => (getEmbedding resp s.dimension x).take s.dimension) := by
        unfold normalizeBatch
        rw [hhead, if_pos (by omega : w ≠ s.dimension), if_neg (by omega)]
        unfold getEmbeddingsBatch
        rw [List.map_map]
        rfl
      have hi : (addDocuments resp s (c :: cs) source).index
          = s.index ++ (c :: cs).map (fun x => (getEmbedding resp s.dimension x).take s.dimension) := by
        rw [hidx, hnb]
      refine ⟨?_, fun _ h => absurd h (by omega), fun _ _ => hi, fun _ h => absurd h (by omega)⟩
      intro v hv
      rw [hi] at hv
      rcases List.mem_append.mp hv with h | h
      · exact hold v h
      · rcases List.mem_map.mp h with ⟨x, hx, rfl⟩
        rw [List.length_take, hw x hx]
        omega

theorem c8_dimension_normalization_witness :
    (∀ v ∈ (addDocuments (fun _ => EmbedResponse.ok []) freshStore ["a"] "src").index,
        v.length = freshStore.dimension)
    ∧ (addDocuments (fun _ => EmbedResponse.ok []) freshStore ["a"] "src").index
        = freshStore.index ++ ["a"].map (fun c =>
            getEmbedding (fun _ => EmbedResponse.ok []) freshStore.dimension c
              ++ List.replicate (freshStore.dimension - 0) 0) := by
  have h := c8_dimension_normalization (fun _ => EmbedResponse.ok [])
    freshStore ["a"] "src" 0 (fun _ _ => rfl)
    (fun v hv => absurd hv (List.not_mem_nil v))
  exact ⟨h.1, h.2.1 (by simp) (by decide)⟩

/-! ### C9: chunker edge cases -/

theorem hasNonSpace_iff (l : List Char) :
    hasNonSpace l = true ↔ ∃ c ∈ l, pySpace c = false := by
  unfold hasNonSpace
  rw [List.any_eq_true]
  constructor
  · rintro ⟨c, hc, hp⟩
    exact ⟨c, hc, by simpa using hp⟩
  · rintro ⟨c, hc, hp⟩
    exact ⟨c, hc, by simpa using hp⟩

theorem hasNonSpace_reverse (l : List Char) :
    hasNonSpace l.reverse = hasNonSpace l := by
  unfold hasNonSpace
  exact List.any_reverse

theorem hasNonSpace_dropWhile (l : List Char) (h : hasNonSpace l = true) :
    hasNonSpace (l.dropWhile pySpace) = true := by
  induction l with
  | nil => simpa using h
  | cons c rest ih =>
    rw [List.dropWhile_cons]
    by_cases hc : pySpace c = true
    · rw [if_pos hc]
      apply ih
      unfold hasNonSpace at h ⊢
      simpa [hc] using h
    · rw [if_neg hc]
      exact h

theorem hasNonSpace_stripChars (l : List Char) (h : hasNonSpace l = true) :
    hasNonSpace (stripChars l) = true := by
  unfold stripChars
  rw [hasNonSpace_reverse]
  apply hasNonSpace_dropWhile
  rw [hasNonSpace_reverse]
  exact hasNonSpace_dropWhile l h

theorem stripChars_ne_nil (l : List Char) (h : hasNonSpace l = true) :
    stripChars l ≠ [] := by
  intro he
  have h2 := hasNonSpace_stripChars l h
  rw [he] at h2
  simp [hasNonSpace] at h2

theorem hasNonSpace_of_stripChars_ne (l : List Char) (h : stripChars l ≠ []) :
    hasNonSpace l = true := by
  by_contra hn
  apply h
  have hall : ∀ c ∈ l, pySpace c = true := by
    intro c hc
    by_contra hcn
    exact hn ((hasNonSpace_iff l).mpr ⟨c, hc, by simpa using hcn⟩)
  have h1 : l.dropWhile pySpace = [] := List.dropWhile_eq_nil_iff.mpr hall
  unfold stripChars
  rw [h1]
  rfl

theorem sentEnd_not_pySpace (c : Char) (h : sentEnd c = true) :
    pySpace c = false := by
  unfold sentEnd at h
  simp only [Bool.or_eq_true, decide_eq_true_eq] at h
  rcases h with (h | h) | h <;> subst h <;> rfl

theorem splitGo_ne_nil : ∀ (l : List Char) (inGap : Bool) (acc : List Char),
    splitGo inGap acc l ≠ [] := by
  intro l
  induction l with
  | nil => intro inGap acc; exact List.cons_ne_nil _ _
  | cons c rest ih =>
    intro inGap acc
    simp only [splitGo]
    by_cases hg : inGap
    · rw [if_pos hg]
      by_cases hc : pySpace c = true
      · rw [if_pos hc]; exact ih true acc
      · rw [if_neg hc]; exact ih false [c]
    · rw [if_neg hg]
      by_cases hc : pySpace c = true
      · rw [if_pos hc]
        cases acc with
        | nil => exact ih false [c]
        | cons p ps =>
          show (if sentEnd p = true then (p :: ps).reverse :: splitGo true [] rest
            else splitGo false (c :: p :: ps) rest) ≠ []
          by_cases hs : sentEnd p = true
          · rw [if_pos hs]; exact List.cons_ne_nil _ _
          · rw [if_neg hs]; exact ih false (c :: p :: ps)
      · rw [if_neg hc]; exact ih false (c :: acc)

theorem nlns_tail {s : List Char} {rest : List (List Char)}
    (h : NLNS (s :: rest)) : NLNS rest := by
  cases rest with
  | nil => trivial
  | cons q r => exact h.2

theorem nlns_rest_nil {s : List Char} {rest : List (List Char)}
    (h : NLNS (s :: rest)) (hs : ¬ hasNonSpace s = true) : rest = [] := by
  cases rest with
  | nil => rfl
  | cons q r => exact absurd h.1 hs

theorem nlns_splitGo : ∀ (l : List Char) (inGap : Bool) (acc : List Char),
    NLNS (splitGo inGap acc l) := by
  intro l
  induction l with
  | nil => intro inGap acc; trivial
  | cons c rest ih =>
    intro inGap acc
    simp only [splitGo]
    by_cases hg : inGap
    · rw [if_pos hg]
      by_cases hc : pySpace c = true
      · rw [if_pos hc]; exact ih true acc
      · rw [if_neg hc]; exact ih false [c]
    · rw [if_neg hg]
      by_cases hc : pySpace c = true
      · rw [if_pos hc]
        cases acc with
        | nil => exact ih false [c]
        | cons p ps =>
          show NLNS (if sentEnd p = true then (p :: ps).reverse :: splitGo true [] rest
            else splitGo false (c :: p :: ps) rest)
          by_cases hs : sentEnd p = true
          · rw [if_pos hs]
            cases hL : splitGo true [] rest with
            | nil => exact absurd hL (splitGo_ne_nil rest true [])
            | cons q r =>
              refine ⟨?_, ?_⟩
              · rw [hasNonSpace_reverse]
                exact (hasNonSpace_iff _).mpr
                  ⟨p, List.mem_cons_self _ _, sentEnd_not_pySpace p hs⟩
              · have h2 := ih true []
                rw [hL] at h2
                exact h2
          · rw [if_neg hs]; exact ih false (c :: p :: ps)
      · rw [if_neg hc]; exact ih false (c :: acc)

theorem hasNonSpace_append_left {a b : List Char} (h : hasNonSpace a = true) :
    hasNonSpace (a ++ b) = true := by
  unfold hasNonSpace at h ⊢
  rw [List.any_append, h, Bool.true_or]

theorem hasNonSpace_append_right {a b : List Char} (h : hasNonSpace b = true) :
    hasNonSpace (a ++ b) = true := by
  unfold hasNonSpace at h ⊢
  rw [List.any_append, h, Bool.or_true]

theorem hasNonSpace_cons_space {s : List Char} (h : hasNonSpace s = true) :
    hasNonSpace (' ' :: s) = true := by
  unfold hasNonSpace at h ⊢
  rw [List.any_cons, h, Bool.or_true]

theorem chunkFold_hasNonSpace (maxChars nOv : Nat) :
    ∀ (sents : List (List Char)) (chunks : List (List Char)) (cc : List Char),
      NLNS sents →
      (cc = [] ∨ hasNonSpace cc = true ∨ sents = []) →
      (∀ c ∈ chunks, hasNonSpace c = true) →
      ∀ c ∈ (sents.foldl (chunkStep maxChars nOv) (chunks, cc)).1,
        hasNonSpace c = true := by
  intro sents
  induction sents with
  | nil =>
    intro chunks cc _ _ hch
    simpa using hch
  | cons s rest ih =>
    intro chunks cc hn hP hch
    rw [List.foldl_cons]
    by_cases hcond : cc.length + s.length > maxChars ∧ cc ≠ []
    · have hccns : hasNonSpace cc = true := by
        rcases hP with h | h | h
        · exact absurd h hcond.2
        · exact h
        · exact absurd h (List.cons_ne_nil _ _)
      have hstep : chunkStep maxChars nOv (chunks, cc) s
          = (chunks ++ [stripChars cc],
             joinSpace (if (splitWS cc).length > 10 then lastSlice nOv (splitWS cc) else [])
               ++ ' ' :: s) := by
        simp only [chunkStep]
        rw [if_pos hcond]
      rw [hstep]
      apply ih
      · exact nlns_tail hn
      · by_cases hs : hasNonSpace s = true
        · right; left
          exact hasNonSpace_append_right (hasNonSpace_cons_space hs)
        · right; right
          exact nlns_rest_nil hn hs
      · intro c hc
        rcases List.mem_append.mp hc with h | h
        · exact hch c h
        · rw [List.mem_singleton.mp h]
          exact hasNonSpace_stripChars cc hccns
    · have hstep : chunkStep maxChars nOv (chunks, cc) s = (chunks, cc ++ ' ' :: s) := by
        simp only [chunkStep]
        rw [if_neg hcond]
      rw [hstep]
      apply ih _ _ (nlns_tail hn) ?_ hch
      by_cases hs : hasNonSpace s = true
      · right; left
        exact hasNonSpace_append_right (hasNonSpace_cons_space hs)
      · rcases hP with h | h | h
        · right; right
          exact nlns_rest_nil hn hs
        · right; left
          exact hasNonSpace_append_left h
        · exact absurd h (List.cons_ne_nil _ _)

/-- Claim C9: chunker edge cases. Empty input text yields zero chunks; a
text forming a single sentence (the sentence split returns it whole) that
contains a non-whitespace character and is longer than `max_chars`
(`max_tokens * 4`) is not split further — it is emitted as exactly one
oversized chunk, the sentence stripped of surrounding whitespace; and for
every input text, no returned chunk is empty after trimming. -/
theorem c9_chunker_edge_cases :
    (∀ maxTokens : Nat, chunkText maxTokens [] = [])
    ∧ (∀ (maxTokens : Nat) (s : List Char), splitSents s = [s] →
        hasNonSpace s = true → s.length > maxTokens * 4 →
        chunkText maxTokens s = [stripChars s])
    ∧ (∀ (maxTokens : Nat) (text : List Char),
        ∀ c ∈ chunkText maxTokens text, stripChars c ≠ []) := by
  refine ⟨?_, ?_, ?_⟩
  · intro mt
    unfold chunkText
    have h1 : splitSents ([] : List Char) = [[]] := rfl
    rw [h1]
    unfold chunkTextCore
    have hstep : ([[]] : List (List Char)).foldl
        (chunkStep (mt * 4) (CHUNK_OVERLAP * 4 / 5)) ([], []) = ([], [' ']) := by
      rw [List.foldl_cons, List.foldl_nil]
      simp only [chunkStep]
      rw [if_neg (by simp)]
      rfl
    rw [hstep]
    rw [if_pos (by decide : stripChars (([], [' ']) :
      List (List Char) × List Char).2 = [])]
  · intro mt s hsplit hns _
    unfold chunkText
    rw [hsplit]
    unfold chunkTextCore
    have hstep : ([s] : List (List Char)).foldl
        (chunkStep (mt * 4) (CHUNK_OVERLAP * 4 / 5)) ([], []) = ([], ' ' :: s) := by
      rw [List.foldl_cons, List.foldl_nil]
      simp only [chunkStep]
      rw [if_neg (by simp)]
      rfl
    rw [hstep]
    have h2 : stripChars (' ' :: s) = stripChars s := by
      unfold stripChars
      rw [List.dropWhile_cons, if_pos (by rfl)]
    show (if stripChars (' ' :: s) = [] then ([] : List (List Char))
      else [] ++ [stripChars (' ' :: s)]) = [stripChars s]
    rw [h2, if_neg (stripChars_ne_nil s hns)]
    rfl
  · intro mt text c hc
    unfold chunkText chunkTextCore at hc
    by_cases hflush : stripChars ((splitSents text).foldl
        (chunkStep (mt * 4) (CHUNK_OVERLAP * 4 / 5)) ([], [])).2 = []
    · rw [if_pos hflush] at hc
      have hns := chunkFold_hasNonSpace (mt * 4) (CHUNK_OVERLAP * 4 / 5)
        (splitSents text) [] [] (nlns_splitGo text false []) (Or.inl rfl)
        (by intro x hx; cases hx) c hc
      exact stripChars_ne_nil c hns
    · rw [if_neg hflush] at hc
      rcases List.mem_append.mp hc with h | h
      · have hns := chunkFold_hasNonSpace (mt * 4) (CHUNK_OVERLAP * 4 / 5)
          (splitSents text) [] [] (nlns_splitGo text false []) (Or.inl rfl)
          (by intro x hx; cases hx) c h
        exact stripChars_ne_nil c hns
      · rw [List.mem_singleton.mp h]
        have hcc := hasNonSpace_of_stripChars_ne _ hflush
        exact stripChars_ne_nil _ (hasNonSpace_stripChars _ hcc)
